import Mathlib

/-!
Shallow embedding of the forensic watermarking core of the
Water-Marker-Forensic repository, together with proofs settling the
frozen claims about it.

Sources embedded here:
- `src/lib/watermark/image-watermark.ts` (ECCEngine: GF(2^8) tables,
  Reed-Solomon encode/decode, extract confidence computation, capacity check)
- `src/lib/watermark/dct-utils.ts` (`getBlockCount`, `MID_FREQUENCY_POSITIONS`)
- the coefficient hopper (`CoefficientHopper`)
- `src/lib/watermark/perceptual-hash.ts` (aHash, dHash, pHash bit pipelines)
- `src/lib/watermark/video-watermark.ts` (temporal shard construction)

JavaScript strings are represented by their UTF-8 byte lists where the code
treats them as byte buffers; exceptions thrown by the source are represented
with `Except String`.
-/

namespace Watermark

/-! ## Galois field GF(2^8), primitive polynomial 0x11D -/

/-- One step of the exponent-table generator loop from `initGaloisField`:
`x <<= 1; if (x & 0x100) x ^= 0x11D`. -/
def gfStep (x : Nat) : Nat :=
  let y := x <<< 1
  if y &&& 0x100 ≠ 0 then y ^^^ 0x11D else y

/-- The first 255 entries of the `gfExp` table: `gfExpList[i] = α^i`. -/
def gfExpList : List Nat :=
  go 255 1
where
  go : Nat → Nat → List Nat
    | 0, _ => []
    | n + 1, x => x :: go n (gfStep x)

/-- `gfExp[i]` of the source, whose table of 512 entries satisfies
`gfExp[i] = gfExp[i mod 255]` for every index the code ever uses. -/
def gfExpAt (i : Nat) : Nat :=
  gfExpList.getD (i % 255) 0

/-- `gfLog[x]` of the source for `x ≠ 0`; the source stores `-1` at `x = 0`,
an entry that is never read because every caller guards the zero case. -/
def gfLog (x : Nat) : Nat :=
  gfExpList.indexOf x

/-- `gfMul` of the source. -/
def gfMul (a b : Nat) : Nat :=
  if a = 0 ∨ b = 0 then 0 else gfExpAt (gfLog a + gfLog b)

/-- The value of `gfDiv(a, b)` of the source at a nonzero divisor; the source's
`(gfLog[a] - gfLog[b] + 255) % 255` on signed integers equals this natural
expression because logs are below 255. -/
def gfDivCore (a b : Nat) : Nat :=
  if a = 0 then 0 else gfExpAt ((gfLog a + 255 - gfLog b) % 255)

/-- `gfDiv` of the source, which throws on a zero divisor. -/
def gfDiv (a b : Nat) : Except String Nat :=
  if b = 0 then Except.error "Division by zero in GF"
  else Except.ok (gfDivCore a b)

/-- `gfPow` of the source; all call sites pass a nonzero base. -/
def gfPow (x p : Nat) : Nat :=
  gfExpAt ((gfLog x * p) % 255)

/-- `gfPolyMul` of the source: `result[i + j] ^= gfMul(p[i], q[j])` over a
zero-initialised array of length `p.length + q.length - 1`. -/
def gfPolyMul (p q : List Nat) : List Nat :=
  (List.range p.length).foldl
    (fun r i =>
      (List.range q.length).foldl
        (fun r j => r.set (i + j) (r.getD (i + j) 0 ^^^ gfMul (p.getD i 0) (q.getD j 0)))
        r)
    (List.replicate (p.length + q.length - 1) 0)

/-- `rsGeneratorPoly` of the source. -/
def rsGeneratorPoly (nsym : Nat) : List Nat :=
  (List.range nsym).foldl (fun g i => gfPolyMul g [1, gfPow 2 i]) [1]

/-! ## Reed-Solomon encoding (`ECCEngine.rsEncode` / `ECCEngine.encode`) -/

/-- The polynomial-division loop of `rsEncode`: starting from
`encoded = message ++ 0^ecc`, for each message index the quotient step
xors a multiple of the generator polynomial. -/
def rsEncodeLoop (gen : List Nat) (msgLen : Nat) (encoded : List Nat) : List Nat :=
  (List.range msgLen).foldl
    (fun enc i =>
      let coef := enc.getD i 0
      if coef ≠ 0 then
        (List.range gen.length).foldl
          (fun e j => e.set (i + j) (e.getD (i + j) 0 ^^^ gfMul (gen.getD j 0) coef))
          enc
      else enc)
    encoded

/-- `ECCEngine.rsEncode`: message bytes followed by `eccBytes` parity bytes. -/
def rsEncode (eccBytes : Nat) (message : List Nat) : List Nat :=
  let gen := rsGeneratorPoly eccBytes
  let encoded := rsEncodeLoop gen message.length (message ++ List.replicate eccBytes 0)
  message ++ encoded.drop message.length

/-- The MSB-first bit expansion of one byte (`for i = 7..0: (byte >> i) & 1`). -/
def byteToBits (b : Nat) : List Nat :=
  [b >>> 7 &&& 1, b >>> 6 &&& 1, b >>> 5 &&& 1, b >>> 4 &&& 1,
   b >>> 3 &&& 1, b >>> 2 &&& 1, b >>> 1 &&& 1, b &&& 1]

/-- `ECCEngine.encode` on the UTF-8 bytes of the payload: RS-encode, then
emit every byte MSB-first. -/
def eccEncode (eccBytes : Nat) (payload : List Nat) : List Nat :=
  ((rsEncode eccBytes payload).map byteToBits).flatten

/-- `ECCEngine.getRequiredBits`. -/
def getRequiredBits (eccBytes payloadByteLength : Nat) : Nat :=
  (payloadByteLength + eccBytes) * 8

/-! ## Reed-Solomon decoding (`ECCEngine.rsDecode` and helpers) -/

/-- `ECCEngine.calcSyndromes`: `S_i = Σ_j message[j] · α^(i·(n-1-j))`. -/
def calcSyndromes (eccBytes : Nat) (message : List Nat) : List Nat :=
  (List.range eccBytes).map fun i =>
    (List.range message.length).foldl
      (fun s j => s ^^^ gfMul (message.getD j 0) (gfPow 2 (i * (message.length - 1 - j))))
      0

/-- One iteration of the source's `berlekampMassey` loop, taking the pair
`(errorLocator, oldLocator)` to its next state. -/
def bmStep (syndromes : List Nat) (st : List Nat × List Nat) (i : Nat) :
    List Nat × List Nat :=
  let errorLocator := st.1
  let delta :=
    (List.range' 1 (errorLocator.length - 1)).foldl
      (fun d j =>
        d ^^^ gfMul (errorLocator.getD j 0) (if j ≤ i then syndromes.getD (i - j) 0 else 0))
      (syndromes.getD i 0)
  let oldLocator := st.2 ++ [0]
  if delta = 0 then (errorLocator, oldLocator)
  else
    let swapped :=
      if oldLocator.length > errorLocator.length then
        (oldLocator.map (fun v => gfMul v delta), errorLocator.map (fun v => gfDivCore v delta))
      else (errorLocator, oldLocator)
    let newLocator :=
      (List.range swapped.1.length).map fun j =>
        swapped.1.getD j 0 ^^^ gfMul delta (swapped.2.getD j 0)
    (newLocator, swapped.2)

/-- `ECCEngine.berlekampMassey`; inside the loop `gfDiv` is only invoked with
the nonzero `delta` as divisor, so the division is total here. -/
def berlekampMassey (syndromes : List Nat) : List Nat :=
  ((List.range syndromes.length).foldl (bmStep syndromes) ([1], [1])).1

/-- `ECCEngine.chienSearch`: indices `i < messageLength` at which the error
locator evaluates to zero. -/
def chienSearch (errorLocator : List Nat) (messageLength : Nat) : List Nat :=
  (List.range messageLength).filter fun i =>
    ((List.range errorLocator.length).foldl
      (fun s j => s ^^^ gfMul (errorLocator.getD j 0) (gfPow 2 (j * i)))
      0) = 0

/-- `ECCEngine.calcErrorEvaluator`: `((0 :: syndromes) * errorLocator)` truncated
to `eccBytes` terms. -/
def calcErrorEvaluator (eccBytes : Nat) (syndromes errorLocator : List Nat) : List Nat :=
  (gfPolyMul (0 :: syndromes) errorLocator).take eccBytes

/-- `ECCEngine.forneyAlgorithm`; the final `gfDiv` can throw when the formal
derivative of the locator evaluates to zero. -/
def forneyAlgorithm (eccBytes : Nat) (syndromes errorLocator errorPositions : List Nat) :
    Except String (List Nat) := do
  let errorEvaluator := calcErrorEvaluator eccBytes syndromes errorLocator
  errorPositions.mapM fun pos => do
    let xi := gfPow 2 pos
    let xiInv ← gfDiv 1 xi
    let evalNumerator :=
      (List.range errorEvaluator.length).foldl
        (fun n i => n ^^^ gfMul (errorEvaluator.getD i 0) (gfPow xiInv i)) 0
    let evalDenominator :=
      (List.range' 1 (errorLocator.length / 2) 2).foldl
        (fun n i => n ^^^ gfMul (errorLocator.getD i 0) (gfPow xiInv (i - 1))) 0
    gfDiv evalNumerator evalDenominator

/-- Result record of `ECCEngine.rsDecode`. -/
structure RsDecodeResult where
  success : Bool
  data : List Nat
  errorsFound : Nat
  errorsCorrected : Nat
deriving Repr, DecidableEq

/-- `corrected[received.length - 1 - errorPositions[i]] ^= errorMagnitudes[i]`. -/
def applyCorrections (received : List Nat) (errorPositions errorMagnitudes : List Nat) :
    List Nat :=
  (errorPositions.zip errorMagnitudes).foldl
    (fun c pm =>
      let pos := received.length - 1 - pm.1
      if pos < c.length then c.set pos (c.getD pos 0 ^^^ pm.2) else c)
    received

/-- `ECCEngine.rsDecode`. -/
def rsDecode (eccBytes : Nat) (received : List Nat) : Except String RsDecodeResult := do
  let syndromes := calcSyndromes eccBytes received
  if syndromes.all (· = 0) then
    return ⟨true, received, 0, 0⟩
  let errorLocator := berlekampMassey syndromes
  let numErrors := errorLocator.length - 1
  let errorPositions := chienSearch errorLocator received.length
  if errorPositions.length ≠ numErrors then
    return ⟨false, received, numErrors, 0⟩
  let errorMagnitudes ← forneyAlgorithm eccBytes syndromes errorLocator errorPositions
  let corrected := applyCorrections received errorPositions errorMagnitudes
  let verifySyndromes := calcSyndromes eccBytes corrected
  let ok := verifySyndromes.all (· = 0)
  return ⟨ok, corrected, numErrors, if ok then numErrors else 0⟩

/-- The byte-packing loop at the top of `ECCEngine.decode`: consume full groups
of 8 bits MSB-first, dropping a trailing partial group. -/
def bitsToBytes : List Nat → List Nat
  | b0 :: b1 :: b2 :: b3 :: b4 :: b5 :: b6 :: b7 :: rest =>
      ((((((((b0 &&& 1) <<< 1 ||| b1 &&& 1) <<< 1 ||| b2 &&& 1) <<< 1 ||| b3 &&& 1) <<< 1
        ||| b4 &&& 1) <<< 1 ||| b5 &&& 1) <<< 1 ||| b6 &&& 1) <<< 1 ||| b7 &&& 1)
        :: bitsToBytes rest
  | _ => []

/-- Result record of `ECCEngine.decode`; `payload` holds the UTF-8 bytes of the
decoded string (`Buffer.toString` in the source is total, so the catch branch
around it is dead code). -/
structure EccDecodeResult where
  payload : Option (List Nat)
  errorsFound : Int
  errorsCorrected : Nat
  corrupted : Bool
deriving Repr, DecidableEq

/-- `ECCEngine.decode`: bits to bytes, RS decode, then strip the parity bytes
(`data.slice(0, -eccBytes)`, which is empty when `eccBytes = 0`). -/
def eccDecode (eccBytes : Nat) (binary : List Nat) : Except String EccDecodeResult := do
  let bytes := bitsToBytes binary
  let result ← rsDecode eccBytes bytes
  if result.success then
    let messageBytes :=
      if eccBytes = 0 then [] else result.data.take (result.data.length - eccBytes)
    return ⟨some messageBytes, (result.errorsFound : Int), result.errorsCorrected, false⟩
  return ⟨none, -1, 0, true⟩

/-! ## Extraction result (`ImageWatermarkEngine.extract`, steps 6-7) -/

/-- Result record of `ImageWatermarkEngine.extract`. -/
structure ExtractResult where
  payload : Option (List Nat)
  confidence : ℚ
  errorsFound : Int
  errorsCorrected : Nat
  bitsExtracted : Nat
deriving Repr, DecidableEq

/-- Steps 6-7 of `ImageWatermarkEngine.extract` on the bit array read from the
DCT plane: ECC decode, then the confidence computation.  The guard
`if (result.payload)` of the source is a JavaScript truthiness test that is
false both for `null` and for the empty string, so the confidence stays `0`
in both of those cases.  The source divides by `maxCorrectableErrors * 2` in
IEEE arithmetic, where `eccBytes < 2` makes the quotient `+∞` and the
confidence `0`; the branch on `t = 0` mirrors that. -/
def extractFromBits (eccBytes : Nat) (binary : List Nat) : Except String ExtractResult := do
  let result ← eccDecode eccBytes binary
  let confidence : ℚ :=
    match result.payload with
    | none => 0
    | some [] => 0
    | some (_ :: _) =>
      if result.errorsFound = 0 then 1
      else if result.errorsFound > 0 then
        let maxCorrectableErrors := eccBytes / 2
        if maxCorrectableErrors = 0 then 0
        else max 0 (1 - (result.errorsFound : ℚ) / (maxCorrectableErrors * 2))
      else 0
  return ⟨result.payload, confidence, result.errorsFound, result.errorsCorrected,
    binary.length⟩

/-! ## Block grid and the embed capacity check -/

/-- Result record of `getBlockCount` from `dct-utils.ts`. -/
structure BlockCount where
  numBlocksX : Nat
  numBlocksY : Nat
  totalBlocks : Nat
deriving Repr, DecidableEq

/-- `getBlockCount`: the number of complete `blockSize × blockSize` blocks. -/
def getBlockCount (width height blockSize : Nat) : BlockCount :=
  ⟨width / blockSize, height / blockSize, (width / blockSize) * (height / blockSize)⟩

/-- Step 6 of `ImageWatermarkEngine.embed`: the embed aborts with the
capacity error exactly when `binaryPayload.length > totalBlocks`, where
`binaryPayload = ECCEngine.encode(payload)`. -/
def embedCapacityError (payload : List Nat) (eccBytes width height blockSize : Nat) : Bool :=
  (eccEncode eccBytes payload).length > (getBlockCount width height blockSize).totalBlocks

/-! ## Temporal shard construction (`VideoWatermarkEngine.embedInFrames`) -/

/-- The subset of `VideoWatermarkOptions` the shard construction reads. -/
structure VideoWatermarkOptions where
  strength : ℚ
  eccBytes : Nat
  temporalShards : Nat
  textureThreshold : ℚ
  frameSamplingRate : Nat
deriving Repr, DecidableEq

/-- `DEFAULT_VIDEO_OPTIONS` from `video-watermark.ts`. -/
def DEFAULT_VIDEO_OPTIONS : VideoWatermarkOptions :=
  { strength := 3 / 100
    eccBytes := 12
    temporalShards := 3
    textureThreshold := 3 / 10
    frameSamplingRate := 1 }

/-- `VideoWatermarkEngine.bitsToHex`: pack bits into hex characters four at a
time MSB-first; a trailing group of fewer than four bits becomes the character
of its own (right-aligned) value. -/
def bitsToHex : List Nat → List Char
  | [] => []
  | b :: rest =>
    (("0123456789abcdef".toList).getD
      (((b :: rest.take 3).foldl (fun n bit => (n <<< 1) ||| (bit &&& 1)) 0)) '0')
      :: bitsToHex (rest.drop 3)
termination_by l => l.length
decreasing_by
  simp only [List.length_drop, List.length_cons]
  omega

/-- `array.slice(start, end)` of JavaScript on lists. -/
def jsSlice (l : List Nat) (start stop : Nat) : List Nat :=
  (l.take stop).drop start

/-- Steps 1-2 and 4 of `VideoWatermarkEngine.embedInFrames`: encode the payload
with the video ECC engine (`eccBytes = 12`), split the bit string into
`temporalShards` contiguous shards re-encoded as hex strings, and compute the
contiguous frame interval of each shard. -/
def embedInFramesPlan (opts : VideoWatermarkOptions) (payload : List Nat)
    (totalFrames : Nat) : List (List Char) × List (Nat × Nat) :=
  let numShards := opts.temporalShards
  let binaryPayload := eccEncode 12 payload
  let shardSize := (binaryPayload.length + numShards - 1) / numShards
  let shards := (List.range numShards).map fun i =>
    bitsToHex (jsSlice binaryPayload (i * shardSize)
      (min (i * shardSize + shardSize) binaryPayload.length))
  let framesPerShard := totalFrames / numShards
  let shardFrameRanges := (List.range numShards).map fun i =>
    (i * framesPerShard,
     if i = numShards - 1 then totalFrames else (i + 1) * framesPerShard)
  (shards, shardFrameRanges)

/-! ## UTF-8 and SHA-256 (the `crypto.createHash("sha256")` collaborator) -/

/-- UTF-8 encoding of one character. -/
def utf8Char (c : Char) : List Nat :=
  let u := c.toNat
  if u < 0x80 then [u]
  else if u < 0x800 then [0xC0 ||| (u >>> 6), 0x80 ||| (u &&& 0x3F)]
  else if u < 0x10000 then
    [0xE0 ||| (u >>> 12), 0x80 ||| ((u >>> 6) &&& 0x3F), 0x80 ||| (u &&& 0x3F)]
  else
    [0xF0 ||| (u >>> 18), 0x80 ||| ((u >>> 12) &&& 0x3F),
     0x80 ||| ((u >>> 6) &&& 0x3F), 0x80 ||| (u &&& 0x3F)]

/-- UTF-8 bytes of a string (`Buffer.from(s, "utf-8")`). -/
def utf8Bytes (s : String) : List Nat :=
  (s.toList.map utf8Char).flatten

/-- Right rotation of a 32-bit word. -/
def rotr (n x : Nat) : Nat :=
  ((x >>> n) ||| (x <<< (32 - n))) &&& 0xFFFFFFFF

/-- The integer cube root (largest `x` with `x³ ≤ n`), by binary digits; valid
for `n < 2^108`, enough for the SHA-256 constant derivation. -/
def cubeRoot (n : Nat) : Nat :=
  (List.range 36).foldl
    (fun x b => let c := x + 2 ^ (35 - b); if c ^ 3 ≤ n then c else x) 0

/-- The first 64 prime numbers. -/
def first64Primes : List Nat :=
  ((List.range 320).filter Nat.Prime).take 64

/-- The SHA-256 round constants: the first 32 bits of the fractional parts of
the cube roots of the first 64 primes. -/
def sha256K : List Nat :=
  first64Primes.map fun p => cubeRoot (p * 2 ^ 96) % 2 ^ 32

/-- The SHA-256 initial hash value: the first 32 bits of the fractional parts
of the square roots of the first 8 primes. -/
def sha256H0 : List Nat :=
  (first64Primes.take 8).map fun p => Nat.sqrt (p * 2 ^ 64) % 2 ^ 32

/-- SHA-256 message padding to a multiple of 64 bytes with the bit length in
the final 8 bytes, big-endian. -/
def sha256Pad (msg : List Nat) : List Nat :=
  let bitLen := msg.length * 8
  let padZeros := (64 + 56 - (msg.length + 1) % 64) % 64
  msg ++ [0x80] ++ List.replicate padZeros 0 ++
    [(bitLen >>> 56) &&& 0xFF, (bitLen >>> 48) &&& 0xFF, (bitLen >>> 40) &&& 0xFF,
     (bitLen >>> 32) &&& 0xFF, (bitLen >>> 24) &&& 0xFF, (bitLen >>> 16) &&& 0xFF,
     (bitLen >>> 8) &&& 0xFF, bitLen &&& 0xFF]

/-- Split a byte list into 64-byte chunks. -/
def chunks64 : List Nat → List (List Nat)
  | [] => []
  | b :: rest => ((b :: rest).take 64) :: chunks64 ((b :: rest).drop 64)
termination_by l => l.length
decreasing_by
  simp only [List.length_drop, List.length_cons]
  omega

/-- The 64-word SHA-256 message schedule of one chunk. -/
def sha256Schedule (chunk : List Nat) : List Nat :=
  let w0 := (List.range 16).map fun t =>
    (chunk.getD (4 * t) 0) <<< 24 ||| (chunk.getD (4 * t + 1) 0) <<< 16 |||
    (chunk.getD (4 * t + 2) 0) <<< 8 ||| chunk.getD (4 * t + 3) 0
  (List.range' 16 48).foldl
    (fun w t =>
      let x15 := w.getD (t - 15) 0
      let x2 := w.getD (t - 2) 0
      let s0 := rotr 7 x15 ^^^ rotr 18 x15 ^^^ (x15 >>> 3)
      let s1 := rotr 17 x2 ^^^ rotr 19 x2 ^^^ (x2 >>> 10)
      w ++ [(w.getD (t - 16) 0 + s0 + w.getD (t - 7) 0 + s1) % 4294967296])
    w0

/-- One SHA-256 compression round applied to the state `[a,b,c,d,e,f,g,h]`. -/
def sha256Round (w : List Nat) (st : List Nat) (t : Nat) : List Nat :=
  let a := st.getD 0 0
  let b := st.getD 1 0
  let c := st.getD 2 0
  let d := st.getD 3 0
  let e := st.getD 4 0
  let f := st.getD 5 0
  let g := st.getD 6 0
  let h := st.getD 7 0
  let bigS1 := rotr 6 e ^^^ rotr 11 e ^^^ rotr 25 e
  let ch := (e &&& f) ^^^ ((e ^^^ 0xFFFFFFFF) &&& g)
  let temp1 := (h + bigS1 + ch + sha256K.getD t 0 + w.getD t 0) % 4294967296
  let bigS0 := rotr 2 a ^^^ rotr 13 a ^^^ rotr 22 a
  let maj := (a &&& b) ^^^ (a &&& c) ^^^ (b &&& c)
  let temp2 := (bigS0 + maj) % 4294967296
  [(temp1 + temp2) % 4294967296, a, b, c, (d + temp1) % 4294967296, e, f, g]

/-- SHA-256 compression of one 64-byte chunk into the running hash. -/
def sha256Compress (h : List Nat) (chunk : List Nat) : List Nat :=
  let w := sha256Schedule chunk
  let final := (List.range 64).foldl (sha256Round w) h
  (h.zip final).map fun p => (p.1 + p.2) % 4294967296

/-- SHA-256 digest of a byte list, as its list of 32 bytes. -/
def sha256 (msg : List Nat) : List Nat :=
  let hs := (chunks64 (sha256Pad msg)).foldl sha256Compress sha256H0
  (hs.map fun wrd =>
    [(wrd >>> 24) &&& 0xFF, (wrd >>> 16) &&& 0xFF, (wrd >>> 8) &&& 0xFF, wrd &&& 0xFF]).flatten

/-! ## Coefficient hopper (`CoefficientHopper` and `MID_FREQUENCY_POSITIONS`) -/

/-- `MID_FREQUENCY_POSITIONS` from `dct-utils.ts`. -/
def MID_FREQUENCY_POSITIONS : List (Nat × Nat) :=
  [(2, 2), (2, 3), (3, 2), (3, 3), (2, 4), (4, 2), (3, 4),
   (4, 3), (4, 4), (2, 5), (5, 2), (3, 5), (5, 3)]

/-- The destructuring swap `[r[i], r[j]] = [r[j], r[i]]`. -/
def listSwap (l : List (Nat × Nat)) (i j : Nat) : List (Nat × Nat) :=
  (l.set i (l.getD j (0, 0))).set j (l.getD i (0, 0))

/-- The Fisher-Yates loop of `shufflePositions`, with the current index `i`
counting down to 1 and `seedIndex` counting up from 0. -/
def shuffleGo (seed : List Nat) : Nat → Nat → List (Nat × Nat) → List (Nat × Nat)
  | 0, _, result => result
  | i + 1, seedIndex, result =>
    let seedByte := seed.getD (seedIndex % seed.length) 0
    let j := seedByte % (i + 2)
    shuffleGo seed i (seedIndex + 1) (listSwap result (i + 1) j)

/-- `CoefficientHopper.shufflePositions`: a seeded Fisher-Yates shuffle with
`j = seedByte mod (i + 1)` and seed bytes consumed in order, wrapping. -/
def shufflePositions (seed : List Nat) (positions : List (Nat × Nat)) :
    List (Nat × Nat) :=
  shuffleGo seed (positions.length - 1) 0 positions

/-- The state of a `CoefficientHopper` instance after construction. -/
structure CoefficientHopper where
  seed : List Nat
  positions : List (Nat × Nat)
deriving Repr, DecidableEq

/-- The `CoefficientHopper` constructor: seed from
`SHA-256(workId ++ ":" ++ payloadHash)`, positions the shuffled default
mid-frequency list.  `blockSize` is accepted and stored nowhere, as in the
source. -/
def coefficientHopper (workId payloadHash : String) (_blockSize : Nat) :
    CoefficientHopper :=
  ⟨sha256 (utf8Bytes (workId ++ ":" ++ payloadHash)),
   shufflePositions (sha256 (utf8Bytes (workId ++ ":" ++ payloadHash)))
     MID_FREQUENCY_POSITIONS⟩

/-- `CoefficientHopper.getPosition`. -/
def CoefficientHopper.getPosition (h : CoefficientHopper) (blockIndex : Nat) :
    Nat × Nat :=
  h.positions.getD (blockIndex % h.positions.length) (0, 0)

/-! ## Perceptual hashes (`perceptual-hash.ts`)

Each function receives the raw grayscale bytes produced by the sharp
resize stage (64 bytes for aHash, 72 for dHash, 1024 for pHash); the
resize itself is the external decoder collaborator. -/

/-- A single lowercase hex character, `n.toString(16)` for `n < 16`. -/
def hexDigitChar (n : Nat) : Char :=
  "0123456789abcdef".toList.getD n '0'

/-- The binary-string-to-hex loop shared by the three hashes: four bits per
character MSB-first; a trailing group of fewer than four bits becomes the
character of its own right-aligned value. -/
def hashBitsToHex : List Bool → List Char
  | [] => []
  | b :: rest =>
    hexDigitChar ((b :: rest.take 3).foldl (fun n bit => 2 * n + (if bit then 1 else 0)) 0)
      :: hashBitsToHex (rest.drop 3)
termination_by l => l.length
decreasing_by
  simp only [List.length_drop, List.length_cons]
  omega

/-- The 64 threshold bits of `computeAverageHash`: each of the 64 grayscale
samples compared against their mean. -/
def aHashBits (data : List Nat) : List Bool :=
  let sum := (List.range 64).foldl (fun s i => s + data.getD i 0) 0
  let avg : ℚ := (sum : ℚ) / 64
  (List.range 64).map fun i => decide ((data.getD i 0 : ℚ) > avg)

/-- `computeAverageHash` after the resize stage. -/
def computeAverageHash (data : List Nat) : List Char :=
  hashBitsToHex (aHashBits data)

/-- The 64 comparison bits of `computeDifferenceHash`: sign of each horizontal
neighbour difference on the 9×8 grayscale grid. -/
def dHashBits (data : List Nat) : List Bool :=
  ((List.range 8).map fun y =>
    (List.range 8).map fun x =>
      decide (data.getD (y * 9 + x) 0 < data.getD (y * 9 + x + 1) 0)).flatten

/-- `computeDifferenceHash` after the resize stage. -/
def computeDifferenceHash (data : List Nat) : List Char :=
  hashBitsToHex (dHashBits data)

/-- The 64 tile means of `computePerceptualHash` (the "simplified DCT"):
mean of each 4×4 tile of the 32×32 grayscale image, row-major. -/
def pHashDct (pixels : List Nat) : List ℚ :=
  ((List.range 8).map fun ty =>
    (List.range 8).map fun tx =>
      (((List.range 4).foldl
        (fun s dy =>
          (List.range 4).foldl
            (fun s dx => s + pixels.getD ((ty * 4 + dy) * 32 + (tx * 4 + dx)) 0)
            s)
        0 : Nat) : ℚ) / 16).flatten

/-- Ascending insertion into a sorted list. -/
def insertAsc (x : ℚ) : List ℚ → List ℚ
  | [] => [x]
  | y :: ys => if x ≤ y then x :: y :: ys else y :: insertAsc x ys

/-- Ascending sort, the numeric `sort((a, b) => a - b)` of the source. -/
def sortAsc (l : List ℚ) : List ℚ :=
  l.foldr insertAsc []

/-- The comparison bits of `computePerceptualHash`: every tile mean except the
DC tile at index 0, thresholded at the median of the 63 non-DC means.  The
loop `for (i = 1; i < dct.length; i++)` emits 63 bits. -/
def pHashBits (pixels : List Nat) : List Bool :=
  let dct := pHashDct pixels
  let sorted := sortAsc (dct.drop 1)
  let median := sorted.getD (sorted.length / 2) 0
  (List.range' 1 63).map fun i => decide (dct.getD i 0 > median)

/-- `computePerceptualHash` after the resize stage. -/
def computePerceptualHash (pixels : List Nat) : List Char :=
  hashBitsToHex (pHashBits pixels)

/-- The value rendered by a hex string, high character first. -/
def natOfHexChars (cs : List Char) : Nat :=
  cs.foldl (fun a c => 16 * a + "0123456789abcdef".toList.indexOf c) 0

/-- The value of a bit string read MSB-first. -/
def bitsVal (bs : List Bool) : Nat :=
  bs.foldl (fun a b => 2 * a + (if b then 1 else 0)) 0

/-! ## Helper lemmas -/

/-- A fold whose step preserves list length preserves list length. -/
theorem foldl_length_eq {β : Type} (f : List Nat → β → List Nat) (l : List β)
    (hf : ∀ s x, (f s x).length = s.length) :
    ∀ s : List Nat, (l.foldl f s).length = s.length := by
  induction l with
  | nil => intro s; rfl
  | cons x xs ih => intro s; rw [List.foldl_cons, ih (f s x), hf]

/-- The RS encoding loop preserves the length of the working array. -/
theorem rsEncodeLoop_length (gen : List Nat) (msgLen : Nat) (encoded : List Nat) :
    (rsEncodeLoop gen msgLen encoded).length = encoded.length := by
  unfold rsEncodeLoop
  apply foldl_length_eq
  intro s x
  dsimp only
  split
  · apply foldl_length_eq
    intro s' y
    exact List.length_set ..
  · rfl

/-- `rsEncode` emits the message followed by `eccBytes` parity bytes. -/
theorem rsEncode_length (eccBytes : Nat) (message : List Nat) :
    (rsEncode eccBytes message).length = message.length + eccBytes := by
  simp [rsEncode, rsEncodeLoop_length]

/-- `ECCEngine.encode` emits exactly `(len(payload) + ecc) · 8` bits. -/
theorem eccEncode_length (eccBytes : Nat) (payload : List Nat) :
    (eccEncode eccBytes payload).length = (payload.length + eccBytes) * 8 := by
  have hsum : ∀ l : List Nat, ((l.map byteToBits).map List.length).sum = l.length * 8 := by
    intro l
    induction l with
    | nil => rfl
    | cons x xs ih =>
      simp only [List.map_cons, List.sum_cons, ih]
      have h8 : (byteToBits x).length = 8 := rfl
      rw [h8, List.length_cons]
      omega
  rw [eccEncode, List.length_flatten, hsum, rsEncode_length]

/-! ## C3: the capacity check -/

/-- C3.  `embed` aborts with the capacity error iff
`(payloadBytes + eccBytes) · 8 > ⌊W/8⌋ · ⌊H/8⌋`; in particular a 64×64 image
with a 1-byte payload and `eccBytes = 8` fails (72 required bits, 64 blocks). -/
theorem embed_capacity_error_iff :
    (∀ (payload : List Nat) (eccBytes width height : Nat),
      embedCapacityError payload eccBytes width height 8 = true ↔
        (payload.length + eccBytes) * 8 > (width / 8) * (height / 8))
    ∧ embedCapacityError [65] 8 64 64 8 = true
    ∧ getRequiredBits 8 1 = 72
    ∧ (getBlockCount 64 64 8).totalBlocks = 64 := by
  refine ⟨fun payload eccBytes width height => ?_, by decide, by decide, by decide⟩
  simp [embedCapacityError, getBlockCount, eccEncode_length]

/-! ## C5: hopper determinism -/

/-- C5.  Two hoppers built from equal `(workId, payloadHash, blockSize)` return
equal coordinates at every block index: the schedule is a pure function of
those inputs. -/
theorem getPosition_deterministic
    (w₁ p₁ : String) (b₁ : Nat) (w₂ p₂ : String) (b₂ : Nat)
    (hw : w₁ = w₂) (hp : p₁ = p₂) (hb : b₁ = b₂) :
    ∀ blockIndex : Nat,
      (coefficientHopper w₁ p₁ b₁).getPosition blockIndex =
        (coefficientHopper w₂ p₂ b₂).getPosition blockIndex := by
  subst hw; subst hp; subst hb
  intro blockIndex
  rfl

/-- Witness for C5 at concrete inputs. -/
theorem getPosition_deterministic_witness :
    (coefficientHopper "GJP-MEDIA-2026-TEST01" "abc" 8).getPosition 5 =
      (coefficientHopper "GJP-MEDIA-2026-TEST01" "abc" 8).getPosition 5 :=
  getPosition_deterministic "GJP-MEDIA-2026-TEST01" "abc" 8
    "GJP-MEDIA-2026-TEST01" "abc" 8 rfl rfl rfl 5

/-! ## C6: the hopper schedule -/

/-- The destructuring swap preserves length. -/
theorem listSwap_length (l : List (Nat × Nat)) (i j : Nat) :
    (listSwap l i j).length = l.length := by
  simp [listSwap]

/-- Members of a swapped list are members of the original list. -/
theorem listSwap_mem (l : List (Nat × Nat)) (i j : Nat)
    (hi : i < l.length) (hj : j < l.length) :
    ∀ a ∈ listSwap l i j, a ∈ l := by
  intro a ha
  rcases List.mem_or_eq_of_mem_set ha with ha' | rfl
  · rcases List.mem_or_eq_of_mem_set ha' with ha'' | rfl
    · exact ha''
    · rw [List.getD_eq_getElem l _ hj]
      exact List.getElem_mem hj
  · rw [List.getD_eq_getElem l _ hi]
    exact List.getElem_mem hi

/-- The Fisher-Yates loop preserves length. -/
theorem shuffleGo_length (seed : List Nat) :
    ∀ (i si : Nat) (l : List (Nat × Nat)), (shuffleGo seed i si l).length = l.length := by
  intro i
  induction i with
  | zero => intro si l; rfl
  | succ n ih => intro si l; rw [shuffleGo, ih, listSwap_length]

/-- Members of the shuffled list are members of the original list whenever the
running index is in range. -/
theorem shuffleGo_mem (seed : List Nat) :
    ∀ (i si : Nat) (l : List (Nat × Nat)), i < l.length →
      ∀ a ∈ shuffleGo seed i si l, a ∈ l := by
  intro i
  induction i with
  | zero => intro si l _ a ha; exact ha
  | succ n ih =>
    intro si l hi a ha
    rw [shuffleGo] at ha
    have hj : seed.getD (si % seed.length) 0 % (n + 2) < l.length :=
      lt_of_le_of_lt (Nat.le_of_lt_succ (Nat.mod_lt _ (Nat.succ_pos _))) hi
    have hlen : n < (listSwap l (n + 1) (seed.getD (si % seed.length) 0 % (n + 2))).length := by
      rw [listSwap_length]; omega
    exact listSwap_mem l (n + 1) _ hi hj a (ih (si + 1) _ hlen a ha)

/-- `shufflePositions` preserves length. -/
theorem shufflePositions_length (seed : List Nat) (positions : List (Nat × Nat)) :
    (shufflePositions seed positions).length = positions.length := by
  rw [shufflePositions, shuffleGo_length]

/-- Members of `shufflePositions` output are members of the input. -/
theorem shufflePositions_mem (seed : List Nat) (positions : List (Nat × Nat)) :
    ∀ a ∈ shufflePositions seed positions, a ∈ positions := by
  intro a ha
  rw [shufflePositions] at ha
  rcases positions with _ | ⟨p, ps⟩
  · cases ha
  · exact shuffleGo_mem seed _ 0 _ (by simp) a ha

/-- Projection of the hopper record built by the constructor. -/
theorem positions_mk (s : List Nat) (pos : List (Nat × Nat)) :
    (CoefficientHopper.mk s pos).positions = pos := rfl

/-- C6.  The hopper's position list is the Fisher-Yates permutation of the 13
default mid-frequency coordinates driven by the bytes of
`SHA-256(workId ++ ":" ++ payloadHash)`; `getPosition i` reads the shuffled
list at `i mod 13`, always lands in the default mid-frequency set, and the
schedule is periodic with period 13. -/
theorem hopper_schedule (workId payloadHash : String) (blockSize : Nat) :
    (coefficientHopper workId payloadHash blockSize).positions =
      shufflePositions (sha256 (utf8Bytes (workId ++ ":" ++ payloadHash)))
        MID_FREQUENCY_POSITIONS
    ∧ (coefficientHopper workId payloadHash blockSize).positions.length = 13
    ∧ (∀ i, (coefficientHopper workId payloadHash blockSize).getPosition i =
        (coefficientHopper workId payloadHash blockSize).positions.getD (i % 13) (0, 0))
    ∧ (∀ i, (coefficientHopper workId payloadHash blockSize).getPosition i ∈
        MID_FREQUENCY_POSITIONS)
    ∧ ∀ i, (coefficientHopper workId payloadHash blockSize).getPosition (i + 13) =
        (coefficientHopper workId payloadHash blockSize).getPosition i := by
  have hpos : (coefficientHopper workId payloadHash blockSize).positions =
      shufflePositions (sha256 (utf8Bytes (workId ++ ":" ++ payloadHash)))
        MID_FREQUENCY_POSITIONS := by
    rw [coefficientHopper, positions_mk]
  have hmid : MID_FREQUENCY_POSITIONS.length = 13 := rfl
  have hlen : (coefficientHopper workId payloadHash blockSize).positions.length = 13 := by
    rw [hpos, shufflePositions_length, hmid]
  refine ⟨hpos, hlen, fun i => ?_, fun i => ?_, fun i => ?_⟩
  · simp only [CoefficientHopper.getPosition, hlen]
  · simp only [CoefficientHopper.getPosition, hpos, shufflePositions_length, hmid]
    apply shufflePositions_mem (sha256 (utf8Bytes (workId ++ ":" ++ payloadHash)))
    have hlt : i % 13 <
        (shufflePositions (sha256 (utf8Bytes (workId ++ ":" ++ payloadHash)))
          MID_FREQUENCY_POSITIONS).length := by
      rw [shufflePositions_length, hmid]
      exact Nat.mod_lt _ (by norm_num)
    rw [List.getD_eq_getElem _ _ hlt]
    exact List.getElem_mem hlt
  · simp only [CoefficientHopper.getPosition, hlen, Nat.add_mod_right]

/-! ## C4 and C10: extraction failure semantics and the confidence invariant -/

/-- Binding a successful `Except` computation runs the continuation. -/
theorem bind_ok_eq {A B : Type} (a : A) (f : A → Except String B) :
    (Except.ok a >>= f) = f a := rfl

/-- Binding a failed `Except` computation propagates the failure. -/
theorem bind_error_eq {A B : Type} (e : String) (f : A → Except String B) :
    ((Except.error e : Except String A) >>= f) = Except.error e := rfl

/-- `pure` on `Except` is `Except.ok`. -/
theorem pure_eq_ok {A : Type} (a : A) : (pure a : Except String A) = Except.ok a := rfl

/-- C4.  Whenever Reed-Solomon decoding fails (non-zero residual syndromes
after attempted correction, or an uncorrectable error count), extraction
returns `payload = null`, `confidence = 0`, `errorsFound = -1`,
`errorsCorrected = 0` without throwing. -/
theorem extract_rs_failure (eccBytes : Nat) (bits : List Nat) (res : RsDecodeResult)
    (hdec : rsDecode eccBytes (bitsToBytes bits) = Except.ok res)
    (hfail : res.success = false) :
    extractFromBits eccBytes bits = Except.ok ⟨none, 0, -1, 0, bits.length⟩ := by
  have hecc : eccDecode eccBytes bits = Except.ok ⟨none, -1, 0, true⟩ := by
    rw [eccDecode, hdec, bind_ok_eq]
    simp [hfail, pure_eq_ok, bind_ok_eq]
  rw [extractFromBits, hecc, bind_ok_eq]
  simp [pure_eq_ok]

set_option maxRecDepth 100000 in
set_option maxHeartbeats 2000000 in
/-- Witness for C4: a one-byte corruption of the codeword of payload `"A"`
drives the decoder into the uncorrectable branch, and extraction reports the
failure tuple. -/
theorem extract_rs_failure_witness :
    rsDecode 8 (bitsToBytes (([64, 206, 241, 168, 55, 170, 165, 184, 86].map
        byteToBits).flatten)) =
      Except.ok ⟨false, [64, 206, 241, 168, 55, 170, 165, 184, 86], 4, 0⟩
    ∧ extractFromBits 8 (([64, 206, 241, 168, 55, 170, 165, 184, 86].map
        byteToBits).flatten) =
      Except.ok ⟨none, 0, -1, 0, 72⟩ :=
  ⟨by rfl,
   extract_rs_failure 8 _ ⟨false, [64, 206, 241, 168, 55, 170, 165, 184, 86], 4, 0⟩
     (by rfl) rfl⟩

set_option maxRecDepth 100000 in
set_option maxHeartbeats 2000000 in
/-- C10 counterexample.  64 zero bits form a valid all-zero codeword: extract
recovers the empty payload with `errorsFound = 0`, yet the confidence is `0`,
not `1` — the source's truthiness guard `if (result.payload)` is false for the
empty string, so `payload ≠ null ∧ errorsFound = 0` does not force
confidence `1`. -/
theorem extract_empty_payload_cex :
    extractFromBits 8 (List.replicate 64 0) = Except.ok ⟨some [], 0, 0, 0, 64⟩
    ∧ ¬(((0 : ℚ) = 1) ↔ (some ([] : List Nat) ≠ none ∧ (0 : Int) = 0)) :=
  ⟨by rfl, fun h => absurd (h.mpr ⟨by simp, rfl⟩) (by norm_num)⟩

/-- C10 as amended.  Every extraction result has confidence in `[0, 1]`; the
confidence is `1` exactly when a non-empty payload was recovered with
`errorsFound = 0`; and it is `0` whenever the payload is `null` or the empty
string (both falsy under the source's `if (result.payload)` guard). -/
theorem extract_confidence_inv (eccBytes : Nat) (bits : List Nat) (res : ExtractResult)
    (h : extractFromBits eccBytes bits = Except.ok res) :
    (0 ≤ res.confidence ∧ res.confidence ≤ 1)
    ∧ (res.confidence = 1 ↔
        res.payload ≠ none ∧ res.payload ≠ some [] ∧ res.errorsFound = 0)
    ∧ (res.payload = none ∨ res.payload = some [] → res.confidence = 0) := by
  rcases hE : eccDecode eccBytes bits with e | d
  · rw [extractFromBits, hE, bind_error_eq] at h
    cases h
  · rw [extractFromBits, hE, bind_ok_eq, pure_eq_ok] at h
    injection h with h
    subst h
    rcases d with ⟨p, ef, ec, cor⟩
    rcases p with _ | ⟨_ | ⟨b, v⟩⟩
    · simp
    · simp
    · by_cases hef : ef = 0
      · simp [hef]
      · have hconf1 : ¬((1 : ℚ) = 0) := by norm_num
        by_cases hpos : ef > 0
        · by_cases ht : eccBytes / 2 = 0
          · simp [hef, hpos, ht]
          · have htQ : (0 : ℚ) < (eccBytes / 2 : Nat) * 2 := by
              have : (0 : ℚ) < ((eccBytes / 2 : Nat) : ℚ) :=
                Nat.cast_pos.mpr (Nat.pos_of_ne_zero ht)
              linarith
            have hefQ : (0 : ℚ) < (ef : ℚ) := by exact_mod_cast hpos
            have hdivpos : 0 < (ef : ℚ) / ((eccBytes / 2 : Nat) * 2) :=
              div_pos hefQ htQ
            have hlt : max 0 (1 - (ef : ℚ) / ((eccBytes / 2 : Nat) * 2)) < 1 :=
              max_lt one_pos (by linarith)
            simp only [ExtractResult.confidence, hef, hpos, ht, if_false, if_true,
              ExtractResult.payload, ExtractResult.errorsFound]
            refine ⟨⟨le_max_left 0 _, hlt.le⟩, ?_,
              by rintro (hcon | hcon) <;> simp at hcon⟩
            constructor
            · intro h1
              exact absurd h1 hlt.ne
            · rintro ⟨-, -, h0⟩
              exact h0.elim
        · simp [hef, hpos]


set_option maxRecDepth 100000 in
set_option maxHeartbeats 2000000 in
/-- Witness for the amended C10: on the clean codeword of payload `"A"` the
extraction result has confidence `1`, a non-empty recovered payload and
`errorsFound = 0`, satisfying every clause of the invariant. -/
theorem extract_confidence_inv_witness :
    extractFromBits 8 (eccEncode 8 [65]) = Except.ok ⟨some [65], 1, 0, 0, 72⟩
    ∧ (((0 : ℚ) ≤ 1 ∧ (1 : ℚ) ≤ 1)
      ∧ ((1 : ℚ) = 1 ↔
          some [65] ≠ none ∧ some [65] ≠ some ([] : List Nat) ∧ (0 : Int) = 0)
      ∧ (some [65] = none ∨ some [65] = some ([] : List Nat) → (1 : ℚ) = 0)) :=
  have h : extractFromBits 8 (eccEncode 8 [65]) = Except.ok ⟨some [65], 1, 0, 0, 72⟩ := by
    rfl
  ⟨h, extract_confidence_inv 8 (eccEncode 8 [65]) ⟨some [65], 1, 0, 0, 72⟩ h⟩

/-! ## C2: the decoder corrects nothing -/

set_option maxRecDepth 100000 in
set_option maxHeartbeats 2000000 in
/-- C2.  The Reed-Solomon decoder fails on a codeword with a single corrupted
byte, although `eccBytes = 8` promises correction of up to 4 byte errors: the
codeword of payload `"A"` is `[65, 206, 241, 168, 55, 170, 165, 184, 86]`;
changing its first byte to `64` (one corrupted byte) makes `decode` return a
null payload with `errorsFound = -1` instead of recovering `"A"`. -/
theorem rs_decoder_never_corrects :
    rsEncode 8 [65] = [65, 206, 241, 168, 55, 170, 165, 184, 86]
    ∧ (((rsEncode 8 [65]).zip [64, 206, 241, 168, 55, 170, 165, 184, 86]).countP
        fun p => p.1 != p.2) = 1
    ∧ (1 : Nat) ≤ 8 / 2
    ∧ eccDecode 8 (([64, 206, 241, 168, 55, 170, 165, 184, 86].map byteToBits).flatten) =
        Except.ok ⟨none, -1, 0, true⟩ :=
  ⟨by rfl, by rfl, by norm_num, by rfl⟩

/-! ## C9: shard construction of the video engine -/

/-- `slice(0, min(s, len))` is `take s`. -/
theorem jsSlice_first (l : List Nat) (s : Nat) :
    jsSlice l 0 (min s l.length) = l.take s := by
  rw [jsSlice, List.drop_zero]
  rcases Nat.le_total s l.length with h | h
  · rw [Nat.min_eq_left h]
  · rw [Nat.min_eq_right h, List.take_length, List.take_of_length_le h]

/-- `slice(s, min(2s, len))` is `take s` after `drop s`. -/
theorem jsSlice_middle (l : List Nat) (s : Nat) :
    jsSlice l s (min (s + s) l.length) = (l.drop s).take s := by
  rw [jsSlice, List.drop_take]
  rcases Nat.le_total (s + s) l.length with h | h
  · rw [Nat.min_eq_left h]
    congr 1
    omega
  · rw [Nat.min_eq_right h]
    have h1 : (l.drop s).length ≤ l.length - s := by rw [List.length_drop]
    rw [List.take_of_length_le (by omega : (l.drop s).length ≤ l.length - s),
      List.take_of_length_le (by rw [List.length_drop]; omega)]

/-- `slice(2s, min(3s, len))` is `drop 2s` when `len ≤ 3s`. -/
theorem jsSlice_last (l : List Nat) (s : Nat) (h : l.length ≤ 2 * s + s) :
    jsSlice l (2 * s) (min (2 * s + s) l.length) = l.drop (2 * s) := by
  rw [jsSlice, Nat.min_eq_right h, List.take_length]

/-- The three contiguous slices cover the whole list when `len ≤ 3s`. -/
theorem threeSlices_join (l : List Nat) (s : Nat) :
    l.take s ++ (l.drop s).take s ++ l.drop (2 * s) = l := by
  have h2 : l.drop (2 * s) = (l.drop s).drop s := by
    rw [List.drop_drop]
    congr 1
    omega
  rw [h2, List.append_assoc, List.take_append_drop, List.take_append_drop]

/-- C9 counterexample.  With the engine's default options the shard count is
the fixed `temporalShards = 3`, not `min(3, ⌈N/10⌉)`: for a 5-frame list the
plan still builds 3 shards while the claimed formula gives 1. -/
theorem video_shard_count_cex :
    ((embedInFramesPlan DEFAULT_VIDEO_OPTIONS [65] 5).1).length = 3
    ∧ min 3 ((5 + 9) / 10) = 1
    ∧ (3 : Nat) ≠ 1 := by
  refine ⟨?_, by norm_num, by norm_num⟩
  simp [embedInFramesPlan, DEFAULT_VIDEO_OPTIONS]

/-- C9 as amended.  With default options, `embedInFrames` RS-encodes the
payload with the video ECC engine (`eccBytes = 12`), splits the bit string
into exactly `temporalShards = 3` contiguous shards of size
`⌈bits/3⌉` (independent of the frame count), re-encodes each shard as a hex
string, and the three bit slices concatenate back to the full bit string. -/
theorem video_shard_plan (payload : List Nat) (totalFrames : Nat) :
    ((embedInFramesPlan DEFAULT_VIDEO_OPTIONS payload totalFrames).1).length = 3
    ∧ (embedInFramesPlan DEFAULT_VIDEO_OPTIONS payload totalFrames).1 =
        [bitsToHex ((eccEncode 12 payload).take
            (((eccEncode 12 payload).length + 2) / 3)),
         bitsToHex (((eccEncode 12 payload).drop
            (((eccEncode 12 payload).length + 2) / 3)).take
            (((eccEncode 12 payload).length + 2) / 3)),
         bitsToHex ((eccEncode 12 payload).drop
            (2 * (((eccEncode 12 payload).length + 2) / 3)))]
    ∧ (eccEncode 12 payload).take (((eccEncode 12 payload).length + 2) / 3)
        ++ ((eccEncode 12 payload).drop (((eccEncode 12 payload).length + 2) / 3)).take
            (((eccEncode 12 payload).length + 2) / 3)
        ++ (eccEncode 12 payload).drop (2 * (((eccEncode 12 payload).length + 2) / 3))
      = eccEncode 12 payload := by
  set binary := eccEncode 12 payload with hbin
  set s := (binary.length + 2) / 3 with hs
  have h3 : binary.length ≤ 2 * s + s := by omega
  have hshards : (embedInFramesPlan DEFAULT_VIDEO_OPTIONS payload totalFrames).1 =
      [bitsToHex (binary.take s), bitsToHex ((binary.drop s).take s),
       bitsToHex (binary.drop (2 * s))] := by
    have hr : List.range 3 = [0, 1, 2] := rfl
    rw [embedInFramesPlan]
    simp only [DEFAULT_VIDEO_OPTIONS]
    rw [show binary.length + 3 - 1 = binary.length + 2 by omega, hr]
    simp only [List.map_cons, List.map_nil, ← hs, Nat.zero_mul, Nat.one_mul, Nat.zero_add]
    rw [jsSlice_first binary s, jsSlice_middle binary s, jsSlice_last binary s h3]
  refine ⟨by rw [hshards]; rfl, hshards, threeSlices_join binary s⟩

/-! ## C8: hex rendering of the perceptual hashes -/

/-- The MSB-first bit fold is bounded by `(acc + 1) · 2^len`. -/
theorem foldl_bits_lt (bs : List Bool) :
    ∀ acc : Nat,
      bs.foldl (fun n bit => 2 * n + (if bit then 1 else 0)) acc < (acc + 1) * 2 ^ bs.length := by
  induction bs with
  | nil => intro acc; simp
  | cons b bs ih =>
    intro acc
    rw [List.foldl_cons, List.length_cons]
    calc bs.foldl (fun n bit => 2 * n + (if bit then 1 else 0))
          (2 * acc + (if b then 1 else 0))
        < (2 * acc + (if b then 1 else 0) + 1) * 2 ^ bs.length := ih _
      _ ≤ (acc + 1) * 2 ^ (bs.length + 1) := by
          rw [pow_succ]
          have hb : (if b then 1 else 0) ≤ 1 := by cases b <;> simp
          calc (2 * acc + (if b then 1 else 0) + 1) * 2 ^ bs.length
              ≤ (2 * acc + 2) * 2 ^ bs.length := by
                apply Nat.mul_le_mul_right
                omega
            _ = (acc + 1) * (2 ^ bs.length * 2) := by ring

/-- The bit value of at most four bits is below 16. -/
theorem nibble_lt_16 (bs : List Bool) (h : bs.length ≤ 4) :
    bs.foldl (fun n bit => 2 * n + (if bit then 1 else 0)) 0 < 16 := by
  have := foldl_bits_lt bs 0
  have hpow : 2 ^ bs.length ≤ 16 := by
    calc (2 : Nat) ^ bs.length ≤ 2 ^ 4 := Nat.pow_le_pow_right (by norm_num) h
      _ = 16 := by norm_num
  omega

/-- Every hex digit below 16 is one of the sixteen lowercase characters. -/
theorem hexDigitChar_mem : ∀ n < 16, hexDigitChar n ∈ "0123456789abcdef".toList := by
  decide

/-- Rendering and re-reading a hex digit below 16 is the identity. -/
theorem hexDigitChar_val : ∀ n < 16, "0123456789abcdef".toList.indexOf (hexDigitChar n) = n := by
  decide

/-- The hex rendering emits one character per four bits, rounding up. -/
theorem hashBitsToHex_length (bs : List Bool) :
    (hashBitsToHex bs).length = (bs.length + 3) / 4 := by
  induction bs using hashBitsToHex.induct with
  | case1 => simp [hashBitsToHex]
  | case2 b rest ih =>
    rw [hashBitsToHex, List.length_cons, ih, List.length_drop, List.length_cons]
    omega

/-- Every character of the hex rendering is a lowercase hex digit. -/
theorem hashBitsToHex_mem (bs : List Bool) :
    ∀ c ∈ hashBitsToHex bs, c ∈ "0123456789abcdef".toList := by
  induction bs using hashBitsToHex.induct with
  | case1 =>
    intro c hc
    rw [hashBitsToHex] at hc
    cases hc
  | case2 b rest ih =>
    intro c hc
    rw [hashBitsToHex] at hc
    rcases List.mem_cons.mp hc with rfl | hc'
    · apply hexDigitChar_mem
      apply nibble_lt_16
      rw [List.length_cons]
      have := List.length_take 3 rest
      omega
    · exact ih c hc'

/-- The hex rendering distributes over an append at a four-bit boundary. -/
theorem hashBitsToHex_append (xs : List Bool) :
    ∀ ys : List Bool, xs.length % 4 = 0 →
      hashBitsToHex (xs ++ ys) = hashBitsToHex xs ++ hashBitsToHex ys := by
  induction xs using hashBitsToHex.induct with
  | case1 =>
    intro ys _
    rw [List.nil_append, hashBitsToHex, List.nil_append]
  | case2 b rest ih =>
    intro ys h4
    rcases rest with _ | ⟨r1, rest⟩
    · simp at h4
    rcases rest with _ | ⟨r2, rest⟩
    · simp at h4
    rcases rest with _ | ⟨r3, rest⟩
    · simp at h4
    have h4' : rest.length % 4 = 0 := by
      simp only [List.length_cons] at h4
      omega
    have hd : (r1 :: r2 :: r3 :: rest).drop 3 = rest := rfl
    rw [hd] at ih
    have ht : (r1 :: r2 :: r3 :: rest).take 3 = [r1, r2, r3] := rfl
    have htys : ((r1 :: r2 :: r3 :: rest) ++ ys).take 3 = [r1, r2, r3] := rfl
    have hdys : ((r1 :: r2 :: r3 :: rest) ++ ys).drop 3 = rest ++ ys := rfl
    rw [List.cons_append, hashBitsToHex, hashBitsToHex, htys, hdys, ht, hd,
      ih ys h4', List.cons_append]

/-- Reading back the hex rendering of a bit string whose length is a multiple
of four recovers the MSB-first bit value. -/
theorem natOfHexChars_hashBitsToHex (bs : List Bool) :
    ∀ a : Nat, bs.length % 4 = 0 →
      (hashBitsToHex bs).foldl
          (fun acc c => 16 * acc + "0123456789abcdef".toList.indexOf c) a =
        bs.foldl (fun acc b => 2 * acc + (if b then 1 else 0)) a := by
  induction bs using hashBitsToHex.induct with
  | case1 =>
    intro a _
    rw [hashBitsToHex]
    rfl
  | case2 b rest ih =>
    intro a h4
    rcases rest with _ | ⟨r1, rest⟩
    · simp at h4
    rcases rest with _ | ⟨r2, rest⟩
    · simp at h4
    rcases rest with _ | ⟨r3, rest⟩
    · simp at h4
    have h4' : rest.length % 4 = 0 := by
      simp only [List.length_cons] at h4
      omega
    have ht : (r1 :: r2 :: r3 :: rest).take 3 = [r1, r2, r3] := rfl
    have hd : (r1 :: r2 :: r3 :: rest).drop 3 = rest := rfl
    rw [hd] at ih
    have hv16 : [b, r1, r2, r3].foldl (fun n bit => 2 * n + (if bit then 1 else 0)) 0 < 16 :=
      nibble_lt_16 _ (by norm_num)
    rw [hashBitsToHex, ht, hd, List.foldl_cons, hexDigitChar_val _ hv16, ih _ h4']
    conv_rhs => rw [List.foldl_cons, List.foldl_cons, List.foldl_cons, List.foldl_cons]
    congr 1
    simp only [List.foldl_cons, List.foldl_nil]
    omega

/-- aHash produces exactly 64 threshold bits. -/
theorem aHashBits_length (data : List Nat) : (aHashBits data).length = 64 := by
  simp [aHashBits]

/-- dHash produces exactly 64 comparison bits. -/
theorem dHashBits_length (data : List Nat) : (dHashBits data).length = 64 := by
  rw [dHashBits, List.length_flatten, List.map_map]
  rfl

/-- pHash produces exactly 63 comparison bits (the DC tile is excluded). -/
theorem pHashBits_length (pixels : List Nat) : (pHashBits pixels).length = 63 := by
  simp [pHashBits]

/-- C8 counterexample.  On a concrete 32×32 image (all-grey), pHash thresholds
only 63 cells — there is no 64th comparison bit to pack — although the
rendered string still has 16 characters. -/
theorem phash_not_64_bits_cex :
    (pHashBits (List.replicate 1024 128)).length = 63
    ∧ (pHashBits (List.replicate 1024 128)).length ≠ 64
    ∧ (computePerceptualHash (List.replicate 1024 128)).length = 16 := by
  refine ⟨pHashBits_length _, by rw [pHashBits_length]; norm_num, ?_⟩
  rw [computePerceptualHash, hashBitsToHex_length, pHashBits_length]

/-- C8 as amended.  aHash and dHash return 16 lowercase hex characters packing
their 64 comparison bits row-major MSB-first (a 64-bit value); pHash returns
16 lowercase hex characters built from its 63 comparison bits, the final
character packing only the last three bits right-aligned. -/
theorem perceptual_hash_rendering (a d p : List Nat) :
    ((aHashBits a).length = 64
      ∧ (computeAverageHash a).length = 16
      ∧ (∀ c ∈ computeAverageHash a, c ∈ "0123456789abcdef".toList)
      ∧ natOfHexChars (computeAverageHash a) = bitsVal (aHashBits a)
      ∧ bitsVal (aHashBits a) < 2 ^ 64)
    ∧ ((dHashBits d).length = 64
      ∧ (computeDifferenceHash d).length = 16
      ∧ (∀ c ∈ computeDifferenceHash d, c ∈ "0123456789abcdef".toList)
      ∧ natOfHexChars (computeDifferenceHash d) = bitsVal (dHashBits d)
      ∧ bitsVal (dHashBits d) < 2 ^ 64)
    ∧ ((pHashBits p).length = 63
      ∧ (computePerceptualHash p).length = 16
      ∧ (∀ c ∈ computePerceptualHash p, c ∈ "0123456789abcdef".toList)
      ∧ natOfHexChars (computePerceptualHash p) =
          16 * bitsVal ((pHashBits p).take 60) + bitsVal ((pHashBits p).drop 60)) := by
  have hval : ∀ bs : List Bool, bs.length % 4 = 0 →
      natOfHexChars (hashBitsToHex bs) = bitsVal bs := fun bs h => by
    rw [natOfHexChars, bitsVal]
    exact natOfHexChars_hashBitsToHex bs 0 h
  refine ⟨⟨aHashBits_length a, ?_, ?_, ?_, ?_⟩,
    ⟨dHashBits_length d, ?_, ?_, ?_, ?_⟩,
    ⟨pHashBits_length p, ?_, ?_, ?_⟩⟩
  · rw [computeAverageHash, hashBitsToHex_length, aHashBits_length]
  · exact hashBitsToHex_mem (aHashBits a)
  · rw [computeAverageHash]
    exact hval _ (by rw [aHashBits_length])
  · have := foldl_bits_lt (aHashBits a) 0
    rw [aHashBits_length] at this
    rw [bitsVal]
    omega
  · rw [computeDifferenceHash, hashBitsToHex_length, dHashBits_length]
  · exact hashBitsToHex_mem (dHashBits d)
  · rw [computeDifferenceHash]
    exact hval _ (by rw [dHashBits_length])
  · have := foldl_bits_lt (dHashBits d) 0
    rw [dHashBits_length] at this
    rw [bitsVal]
    omega
  · rw [computePerceptualHash, hashBitsToHex_length, pHashBits_length]
  · exact hashBitsToHex_mem (pHashBits p)
  · have hlen : (pHashBits p).length = 63 := pHashBits_length p
    have hlen60 : ((pHashBits p).take 60).length = 60 := by
      rw [List.length_take, hlen]
      rfl
    have hlen3 : ((pHashBits p).drop 60).length = 3 := by
      rw [List.length_drop, hlen]
    obtain ⟨x, y, z, hxyz⟩ : ∃ x y z, (pHashBits p).drop 60 = [x, y, z] := by
      rcases h3 : (pHashBits p).drop 60 with _ | ⟨x, _ | ⟨y, _ | ⟨z, _ | ⟨w, t⟩⟩⟩⟩ <;>
        rw [h3] at hlen3 <;> simp at hlen3
      exact ⟨x, y, z, rfl⟩
    have hsingle : hashBitsToHex [x, y, z] =
        [hexDigitChar ([x, y, z].foldl (fun n bit => 2 * n + (if bit then 1 else 0)) 0)] := by
      have h1 : ([y, z] : List Bool).take 3 = [y, z] := rfl
      have h2 : ([y, z] : List Bool).drop 3 = [] := rfl
      rw [hashBitsToHex, h1, h2, hashBitsToHex]
    have hsplit : hashBitsToHex (pHashBits p) =
        hashBitsToHex ((pHashBits p).take 60) ++ [hexDigitChar
          ([x, y, z].foldl (fun n bit => 2 * n + (if bit then 1 else 0)) 0)] := by
      conv_lhs => rw [← List.take_append_drop 60 (pHashBits p)]
      rw [hashBitsToHex_append _ _ (by rw [hlen60]), hxyz, hsingle]
    rw [computePerceptualHash, natOfHexChars, hsplit, List.foldl_append]
    have hv16 : [x, y, z].foldl (fun n bit => 2 * n + (if bit then 1 else 0)) 0 < 16 :=
      nibble_lt_16 _ (by norm_num)
    rw [List.foldl_cons, List.foldl_nil, hexDigitChar_val _ hv16]
    have hA : ((hashBitsToHex ((pHashBits p).take 60)).foldl
        (fun acc c => 16 * acc + "0123456789abcdef".toList.indexOf c) 0) =
          bitsVal ((pHashBits p).take 60) := by
      rw [bitsVal]
      exact natOfHexChars_hashBitsToHex _ 0 (by rw [hlen60])
    rw [hA, hxyz]
    rfl

end Watermark
